import Mathlib

/-
  Verification development for the ag-grid repository.

  Part 1: the Range Aggregator of the grid status bar
  (`StatusBar.onRangeSelectionChanged`).
  Part 2: the area chart series data processor and selection reconciler
  (`AreaSeries.processData`, `AreaSeries.update`,
  `AreaSeries.generateSelectionData`).

  Machine numbers are embedded as rationals; the JS special values
  (NaN and the infinities) are carried explicitly where they can arise.
-/

namespace AgGrid

/-! ### Range Aggregator (StatusBar) -/

/-- A rectangular cell range selection. `startRow`/`endRow` are not ordered:
the earlier row must be discovered by comparison. Modelled from the spec:
`GridRow` (ag-grid core entity, not under src/) is a position in one logical
row sequence, so a row is a natural number, `before` is `<`, and the
"next row" traversal (`CellNavigationService.getRowBelow`) is successor. -/
structure CellRange where
  startRow : Nat
  endRow : Nat
  columns : List Nat
deriving DecidableEq

/-- A cell value as seen by the aggregation loop. `str` carries the result of
the JS `Number(...)` coercion of the string (`none` when the coercion yields
NaN); `other` covers non-number, non-string values. -/
inductive CellValue where
  | num : ℚ → CellValue
  | nan : CellValue
  | str : Option ℚ → CellValue
  | other : CellValue
deriving DecidableEq

/-- The string-to-number coercion step of the loop:
`if (typeof value === 'string') value = Number(value)`. -/
def coerceValue : CellValue → CellValue
  | .str (some q) => .num q
  | .str none => .nan
  | v => v

/-- Accumulator of one aggregation pass: the four running aggregates plus the
set of cell identities already counted. Modelled from the spec:
`GridCell.createId` (not under src/) is a unique identity per (row, column),
so the identity is the pair itself. -/
structure AggAcc where
  sum : ℚ
  count : Nat
  min : ℚ
  max : ℚ
  seen : List (Nat × Nat)
deriving DecidableEq

/-- Initial accumulator: sum, count, min and max all seeded at 0. -/
def initAcc : AggAcc := ⟨0, 0, 0, 0, []⟩

/-- One cell visit of the aggregation loop body: skip if the identity was
already counted, otherwise record it, coerce the looked-up value, fold a
numeric non-NaN value into sum/max/min, and count the visit either way. -/
def processCell (lookup : Nat → Nat → CellValue) (row : Nat)
    (acc : AggAcc) (col : Nat) : AggAcc :=
  let cellId := (row, col)
  if cellId ∈ acc.seen then acc
  else
    let acc1 := { acc with seen := cellId :: acc.seen }
    match coerceValue (lookup col row) with
    | .num q =>
        { acc1 with
          sum := acc1.sum + q
          max := if q > acc1.max then q else acc1.max
          min := if q < acc1.min then q else acc1.min
          count := acc1.count + 1 }
    | _ => { acc1 with count := acc1.count + 1 }

/-- The rows a range walks: from the earlier of `startRow`/`endRow` to the
later one, inclusive (the source's `while (true)` loop advancing via
`getRowBelow` and breaking at `lastRow`). -/
def rangeRows (r : CellRange) : List Nat :=
  let firstRow := if r.startRow < r.endRow then r.startRow else r.endRow
  let lastRow := if r.startRow < r.endRow then r.endRow else r.startRow
  List.range' firstRow (lastRow + 1 - firstRow)

/-- Process one range: walk its rows, and for each row visit each of the
range's columns. -/
def processRange (lookup : Nat → Nat → CellValue) (acc : AggAcc)
    (r : CellRange) : AggAcc :=
  (rangeRows r).foldl (fun a row => r.columns.foldl (processCell lookup row) a) acc

/-- One aggregation pass over all current cell ranges; the dedup set inside
the accumulator is shared across all ranges of the pass. -/
def runAggregation (lookup : Nat → Nat → CellValue)
    (ranges : List CellRange) : AggAcc :=
  if ranges.isEmpty then initAcc
  else ranges.foldl (processRange lookup) initAcc

/-- One status bar item: its visibility flag and last set value. -/
structure StatusItemState where
  visible : Bool
  value : ℚ
deriving DecidableEq

/-- The five status bar items. -/
structure StatusBarState where
  sumItem : StatusItemState
  countItem : StatusItemState
  minItem : StatusItemState
  maxItem : StatusItemState
  avgItem : StatusItemState
deriving DecidableEq

/-- The range-selection-changed handler: run the aggregation pass, set the
item values only when more than one cell was visited, and set every item's
visibility to that same condition. -/
def onRangeSelectionChanged (lookup : Nat → Nat → CellValue)
    (ranges : List CellRange) (st : StatusBarState) : StatusBarState :=
  let a := runAggregation lookup ranges
  let gotResult := decide (1 < a.count)
  let st1 :=
    if 1 < a.count then
      { sumItem := { st.sumItem with value := a.sum }
        countItem := { st.countItem with value := (a.count : ℚ) }
        minItem := { st.minItem with value := a.min }
        maxItem := { st.maxItem with value := a.max }
        avgItem := { st.avgItem with value := a.sum / (a.count : ℚ) } }
    else st
  { sumItem := { st1.sumItem with visible := gotResult }
    countItem := { st1.countItem with visible := gotResult }
    minItem := { st1.minItem with visible := gotResult }
    maxItem := { st1.maxItem with visible := gotResult }
    avgItem := { st1.avgItem with visible := gotResult } }

/-- An all-hidden initial status bar. -/
def statusBar0 : StatusBarState :=
  ⟨⟨false, 0⟩, ⟨false, 0⟩, ⟨false, 0⟩, ⟨false, 0⟩, ⟨false, 0⟩⟩

/-- Value lookup for the C7 scenario: one column, rows 0, 1, 2 holding the
numeric values 1, 2, 3. -/
def lookupC7 : Nat → Nat → CellValue :=
  fun _ row => if row = 0 then .num 1 else if row = 1 then .num 2 else .num 3

/-- The reversed range of the C7 scenario: `end` row 0 precedes `start`
row 2, one column. -/
def rangeC7 : CellRange := ⟨2, 0, [0]⟩


/-! ### Area series: JS numbers -/

/-- A JS `number` restricted to the values arising here: a finite value
(embedded as a rational), `NaN`, or one of the infinities. -/
inductive JSNum where
  | fin : ℚ → JSNum
  | nan : JSNum
  | pinf : JSNum
  | ninf : JSNum
deriving DecidableEq

/-- JS division of two finite numbers: division by zero yields NaN for a
zero dividend and a signed infinity otherwise. -/
def jsDiv (a b : ℚ) : JSNum :=
  if b = 0 then (if a = 0 then .nan else if 0 < a then .pinf else .ninf)
  else .fin (a / b)

/-- JS multiplication of a number by a finite value. -/
def JSNum.mulFin : JSNum → ℚ → JSNum
  | .fin a, t => .fin (a * t)
  | .nan, _ => .nan
  | .pinf, t => if 0 < t then .pinf else if t < 0 then .ninf else .nan
  | .ninf, t => if 0 < t then .ninf else if t < 0 then .pinf else .nan

/-- JS addition. -/
def JSNum.add : JSNum → JSNum → JSNum
  | .fin a, .fin b => .fin (a + b)
  | .nan, _ => .nan
  | _, .nan => .nan
  | .pinf, .ninf => .nan
  | .ninf, .pinf => .nan
  | .pinf, _ => .pinf
  | _, .pinf => .pinf
  | .ninf, _ => .ninf
  | _, .ninf => .ninf

/-- JS addition of a finite value (scale offsets). -/
def JSNum.addFin (x : JSNum) (q : ℚ) : JSNum := x.add (.fin q)

/-- The JS comparison `x < 0`: false for NaN. -/
def JSNum.ltZero : JSNum → Bool
  | .fin a => decide (a < 0)
  | .ninf => true
  | _ => false

/-! ### Area series: data processing (`AreaSeries.processData`) -/

/-- The per-row min/max record used for normalization. -/
structure MinMax where
  min : ℚ
  max : ℚ
deriving DecidableEq

/-- Modelled from the spec: `findMinMax` is imported from `util/array`,
which is not under src/. Per the spec's data model ("the larger of (sum of
negative values, sum of positive values)"), its testable property 3
(`max(|negativeSum|, positiveSum) == T` after normalization) and scenario 6
("row Jan cumulative max=5,min=-3"), it accumulates the row's same-signed
running totals: `min` is the sum of the negative entries and `max` the sum
of the non-negative entries. -/
def findMinMax (values : List ℚ) : MinMax :=
  values.foldl (fun mm v => if v < 0 then ⟨mm.min + v, mm.max⟩ else ⟨mm.min, mm.max + v⟩)
    ⟨0, 0⟩

/-- `AreaSeries.findLargestMinMax`: the most negative per-row `min` (or 0)
and the largest per-row `max` (or 0). -/
def findLargestMinMax (totals : List MinMax) : MinMax :=
  totals.foldl
    (fun acc total =>
      ⟨if total.min < acc.min then total.min else acc.min,
       if total.max > acc.max then total.max else acc.max⟩)
    ⟨0, 0⟩

/-- A raw input row: an untyped record, modelled as its category-valued
fields and its numeric-valued fields (string-encoded numbers do not occur
in the properties considered here). A missing key is `none`. -/
structure Datum where
  catVal : String → Option String
  numVal : String → Option JSNum

/-- The series configuration and data that `processData` reads. -/
structure AreaSeriesState where
  xKey : String
  yKeys : List String
  seriesItemEnabled : String → Bool
  data : Option (List Datum)
  normalizedTo : Option ℚ

/-- `xKey && yKeys.length && this.data ? this.data : []`. -/
def seriesData (s : AreaSeriesState) : List Datum :=
  if s.xKey ≠ "" ∧ s.yKeys ≠ [] then s.data.getD [] else []

/-- `this.xData = data.map(datum => datum[xKey])` (the one-time missing-key
warning is a console side effect and is not modelled). -/
def buildXData (s : AreaSeriesState) : List (Option String) :=
  (seriesData s).map fun d => d.catVal s.xKey

/-- One entry of a row's value vector:
`isFinite(value) && seriesItemEnabled.get(yKey) ? value : 0`. -/
def rowValue (s : AreaSeriesState) (d : Datum) (yKey : String) : ℚ :=
  match d.numVal yKey with
  | some (.fin q) => if s.seriesItemEnabled yKey then q else 0
  | _ => 0

/-- `this.yData = data.map(datum => yKeys.map(yKey => ...))`. -/
def buildYData (s : AreaSeriesState) : List (List ℚ) :=
  (seriesData s).map fun d => s.yKeys.map (rowValue s d)

/-- The normalization guard `normalizedTo && isFinite(normalizedTo)`: the
stored target when it is truthy (nonzero); `isFinite` holds for every
rational, so only the zero check remains. -/
def activeNormTarget (s : AreaSeriesState) : Option ℚ :=
  match s.normalizedTo with
  | some t => if t ≠ 0 then some t else none
  | none => none

/-- One entry of the normalization pass:
`y < 0 ? -y / min * normalizedTo : y / max * normalizedTo`. -/
def scaleEntry (m M T y : ℚ) : JSNum :=
  if y < 0 then (jsDiv (-y) m).mulFin T else (jsDiv y M).mulFin T

/-- Normalize one row against its own pre-normalization min/max. -/
def scaleRow (T : ℚ) (row : List ℚ) : List JSNum :=
  let mm := findMinMax row
  row.map fun y => scaleEntry mm.min mm.max T y

/-- Modelled from the spec: `fixNumericExtent` (in `series.ts`, not under
src/). The spec describes no extent adjustment beyond the `[0,0] → [0,1]`
widening, which the code under src/ performs before this call, so it is the
identity. -/
def fixNumericExtent (extent : ℚ × ℚ) : ℚ × ℚ := extent

/-- What `processData` produces: its boolean return value and the updated
`xData`, `yData` and `yDomain` fields. -/
structure ProcessResult where
  returned : Bool
  xData : List (Option String)
  yData : List (List JSNum)
  yDomain : ℚ × ℚ
deriving DecidableEq

/-- `AreaSeries.processData`: build `xData` and the per-row value vectors,
compute the per-row min/max totals and their global extreme, normalize the
rows in place when a normalization target is active, widen a collapsed
`[0,0]` extent to `[0,1]`, and return `true`. -/
def processData (s : AreaSeriesState) : ProcessResult :=
  let xData := buildXData s
  let yRows := buildYData s
  let yMinMax := yRows.map findMinMax
  let yLargestMinMax := findLargestMinMax yMinMax
  let norm := activeNormTarget s
  let yMin : ℚ :=
    match norm with
    | some t => if yLargestMinMax.min < 0 then -t else 0
    | none => yLargestMinMax.min
  let yMax : ℚ :=
    match norm with
    | some t => t
    | none => yLargestMinMax.max
  let yData : List (List JSNum) :=
    match norm with
    | some t => yRows.map (scaleRow t)
    | none => yRows.map fun r => r.map JSNum.fin
  let yMax := if yMin = 0 ∧ yMax = 0 then 1 else yMax
  { returned := true, xData := xData, yData := yData
    yDomain := fixNumericExtent (yMin, yMax) }

/-- The `normalizedTo` setter's stored value:
`value ? Math.abs(value) : undefined` (0 is falsy). -/
def normalizedToStore (value : Option ℚ) : Option ℚ :=
  match value with
  | some v => if v = 0 then none else some |v|
  | none => none

/-- Assign the `normalizedTo` property through its setter. -/
def setNormalizedTo (s : AreaSeriesState) (value : Option ℚ) : AreaSeriesState :=
  { s with normalizedTo := normalizedToStore value }

/-! ### Sums of signed parts -/

/-- Sum of the negative entries of a rational list. -/
def negPart (l : List ℚ) : ℚ := (l.filter fun v => v < 0).sum

/-- Sum of the non-negative entries of a rational list. -/
def nonnegPart (l : List ℚ) : ℚ := (l.filter fun v => ¬ v < 0).sum

/-- Sum of the strictly positive entries of a rational list. -/
def posPart (l : List ℚ) : ℚ := (l.filter fun v => 0 < v).sum

/-- Sum of the finite negative entries of a JS number list (NaN and the
infinities are neither negative nor positive entries). -/
def jsNegSum (l : List JSNum) : ℚ :=
  (l.filterMap fun x =>
    match x with
    | .fin q => if q < 0 then some q else none
    | _ => none).sum

/-- Sum of the finite positive entries of a JS number list. -/
def jsPosSum (l : List JSNum) : ℚ :=
  (l.filterMap fun x =>
    match x with
    | .fin q => if 0 < q then some q else none
    | _ => none).sum


/-! ### Area series: selection data and update (`AreaSeries.update`) -/

/-- The chart collaborator fields the readiness guard reads. -/
structure ChartRef where
  layoutPending : Bool
  dataPending : Bool

/-- The empty string (JS `''` / an `undefined` lookup default). -/
def emptyKey : String := ""

/-- An axis for categories, by its scale capability (external collaborator):
`convert(domainValue) -> pixel` plus an optional `bandwidth`. -/
structure XAxisModel where
  convert : Option String → ℚ
  bandwidth : Option ℚ

/-- An axis for values, by its scale capability. -/
structure YAxisModel where
  convert : JSNum → JSNum
  bandwidth : Option ℚ

/-- A 2D point of the generated geometry: the x pixel is produced by the
category scale (a rational); the y pixel may be any JS number. -/
structure Point where
  x : ℚ
  y : JSNum
deriving DecidableEq

/-- An area-polygon datum (`AreaSelectionDatum`): value-key identity plus
the point array, written by index (unassigned JS slots are `none`). -/
structure AreaDatum where
  itemId : String
  points : List (Option Point)
deriving DecidableEq

/-- A marker datum (`MarkerSelectionDatum`). The `series` and `seriesDatum`
back-references of the source are represented by the row index (a
non-owning handle). -/
structure MarkerDatum where
  index : Nat
  itemId : String
  yValue : Option JSNum
  yKey : String
  point : Point
  fill : String
  stroke : String
deriving DecidableEq

/-- The resolved label of a label datum. -/
structure LabelStyle where
  text : String
  fontStyle : Option String
  fontWeight : Option String
  fontSize : ℚ
  fontFamily : String
  textAlign : String
  textBaseline : String
  fill : String
deriving DecidableEq

/-- A label datum (`LabelSelectionDatum`). -/
structure LabelDatum where
  index : Nat
  itemId : String
  point : Point
  label : Option LabelStyle
deriving DecidableEq

/-- The series label configuration, with its optional pluggable formatter. -/
structure LabelConfig where
  enabled : Bool
  fontStyle : Option String
  fontWeight : Option String
  fontSize : ℚ
  fontFamily : String
  color : String
  formatter : Option (Option JSNum → String)

/-- The default label text
`isFinite(yValue) ? yValue.toFixed(2) : yValue ? String(yValue) : ''`
(numeric formatting abstracted to `toString`; NaN and undefined are falsy). -/
def defaultLabelText : Option JSNum → String
  | some (.fin q) => toString q
  | some .pinf => "Infinity"
  | some .ninf => "-Infinity"
  | some .nan => ""
  | none => ""

/-- JS array index assignment `arr[i] = a`: in-place when `i` is within the
array, otherwise pad with holes (`none`) and extend. -/
def setAt (l : List (Option α)) (i : Nat) (a : α) : List (Option α) :=
  if i < l.length then l.set i (some a)
  else l ++ List.replicate (i - l.length) none ++ [some a]

/-- `areaSelectionData[j] || (areaSelectionData[j] = { itemId: yKey, points: [] })`:
read the slot, creating the default when absent. -/
def getArea (l : List AreaDatum) (j : Nat) (yKey : String) : AreaDatum :=
  l.getD j ⟨yKey, []⟩

/-- Write back slot `j`; the keys are visited in order `0, 1, 2, ...`, so a
write past the end is an append. -/
def putArea (l : List AreaDatum) (j : Nat) (d : AreaDatum) : List AreaDatum :=
  if j < l.length then l.set j d else l ++ [d]

/-- Everything the selection-data generator reads besides the loop state. -/
structure GenCtx where
  data : List Datum
  yData : List (List JSNum)
  yKeys : List String
  fills : List String
  strokes : List String
  label : LabelConfig
  xScale : XAxisModel
  yScale : YAxisModel

/-- The three parallel selection-data lists being accumulated. -/
structure GenAcc where
  areaData : List AreaDatum
  markers : List MarkerDatum
  labels : List LabelDatum
deriving DecidableEq

/-- The body of `yDatum.forEach((curr, j) => ...)` for row `i`: pick the
running cumulative matching the sign of `curr` as the baseline, convert
`prev + curr` (top edge) and `prev` (bottom edge), emit the marker and
label datums, write the polygon points at `i` and `last - i`, and add
`curr` into the matching running cumulative. -/
def genKeyStep (ctx : GenCtx) (i last : Nat) (x yOffset : ℚ) (seriesDatum : Datum)
    (st : GenAcc × JSNum × JSNum) (jc : Nat × JSNum) : GenAcc × JSNum × JSNum :=
  let acc := st.1
  let prevMin := st.2.1
  let prevMax := st.2.2
  let j := jc.1
  let curr := jc.2
  let prev := if curr.ltZero then prevMin else prevMax
  let y := (ctx.yScale.convert (prev.add curr)).addFin yOffset
  let yKey := ctx.yKeys.getD j emptyKey
  let yValue := seriesDatum.numVal yKey
  let markers := acc.markers ++
    [⟨i, yKey, yValue, yKey, ⟨x, y⟩,
      ctx.fills.getD (j % ctx.fills.length) emptyKey,
      ctx.strokes.getD (j % ctx.strokes.length) emptyKey⟩]
  let labelText :=
    match ctx.label.formatter with
    | some f => f yValue
    | none => defaultLabelText yValue
  let labels := acc.labels ++
    [⟨i, yKey, ⟨x, y⟩,
      if labelText ≠ emptyKey then
        some ⟨labelText, ctx.label.fontStyle, ctx.label.fontWeight,
          ctx.label.fontSize, ctx.label.fontFamily, "center", "bottom",
          ctx.label.color⟩
      else none⟩]
  let areaDatum := getArea acc.areaData j yKey
  let bottomY := (ctx.yScale.convert prev).addFin yOffset
  let points := setAt (setAt areaDatum.points i ⟨x, y⟩) (last - i) ⟨x, bottomY⟩
  let areaData := putArea acc.areaData j ⟨areaDatum.itemId, points⟩
  let prevMin2 := if curr.ltZero then prevMin.add curr else prevMin
  let prevMax2 := if curr.ltZero then prevMax else prevMax.add curr
  (⟨areaData, markers, labels⟩, prevMin2, prevMax2)

/-- The body of `xData.forEach((xDatum, i) => ...)`: fetch the row's value
vector and raw datum, convert the category, and fold the value keys with
both running cumulatives reset to 0. -/
def genRowStep (ctx : GenCtx) (xOffset yOffset : ℚ) (last : Nat)
    (acc : GenAcc) (ix : Nat × Option String) : GenAcc :=
  let yDatum := ctx.yData.getD ix.1 []
  let seriesDatum := ctx.data.getD ix.1 ⟨fun _ => none, fun _ => none⟩
  let x := ctx.xScale.convert ix.2 + xOffset
  (yDatum.enum.foldl (genKeyStep ctx ix.1 last x yOffset seriesDatum)
    (acc, .fin 0, .fin 0)).1

/-- The inputs `AreaSeries.update` reads. The axes are modelled by their
scale capabilities; marker enablement and shape presence gate the marker
node list as in `updateMarkerSelection`. -/
structure SeriesUpdateState where
  visible : Bool
  chart : Option ChartRef
  xAxis : Option XAxisModel
  yAxis : Option YAxisModel
  data : Option (List Datum)
  xData : List (Option String)
  yData : List (List JSNum)
  yKeys : List String
  fills : List String
  strokes : List String
  label : LabelConfig
  markerEnabled : Bool
  markerShapePresent : Bool

/-- `AreaSeries.generateSelectionData`: `undefined` when `this.data` is
missing, otherwise the three selection-data lists built over the rows. -/
def generateSelectionData (s : SeriesUpdateState) (xAxis : XAxisModel)
    (yAxis : YAxisModel) : Option GenAcc :=
  match s.data with
  | none => none
  | some data =>
      let ctx : GenCtx := ⟨data, s.yData, s.yKeys, s.fills, s.strokes, s.label, xAxis, yAxis⟩
      let xOffset := xAxis.bandwidth.getD 0 / 2
      let yOffset := yAxis.bandwidth.getD 0 / 2
      let last := s.xData.length * 2 - 1
      some (s.xData.enum.foldl (genRowStep ctx xOffset yOffset last) ⟨[], [], []⟩)

/-- The retained rendering state the update call owns. Modelled from the
spec: the scene `Selection` machinery (`scene/selection`, not under src/)
reconciles positionally and every kept node is fully restyled from its
datum each pass, so retained nodes are represented by their datum lists. -/
structure SceneState where
  groupVisible : Bool
  fillNodes : List AreaDatum
  strokeNodes : List AreaDatum
  markerNodes : List MarkerDatum
  labelNodes : List LabelDatum
  markerSelectionData : List MarkerDatum
deriving DecidableEq

/-- The readiness guard of `update`:
`!chart || chart.layoutPending || chart.dataPending || !visible || !xAxis
|| !yAxis || !xData.length || !yData.length`. -/
def notReady (s : SeriesUpdateState) : Bool :=
  match s.chart with
  | none => true
  | some c =>
      c.layoutPending || c.dataPending || !s.visible || s.xAxis.isNone ||
        s.yAxis.isNone || s.xData.isEmpty || s.yData.isEmpty

/-- `AreaSeries.update`: always recompute the root group's visibility, skip
the rest when not ready, otherwise regenerate the selection data and
reconcile the four retained node lists (markers and labels emptied when
disabled), finally retaining the marker selection data. The axes are
present whenever the guard passes, so the unreachable missing-axis arm
returns the guarded state unchanged. -/
def update (s : SeriesUpdateState) (scene : SceneState) : SceneState :=
  let scene1 := { scene with
    groupVisible := s.visible && (!s.xData.isEmpty && !s.yData.isEmpty) }
  if notReady s then scene1
  else
    match s.xAxis, s.yAxis with
    | some xAxis, some yAxis =>
        match generateSelectionData s xAxis yAxis with
        | none => scene1
        | some g =>
            { groupVisible := scene1.groupVisible
              fillNodes := g.areaData
              strokeNodes := g.areaData
              markerNodes :=
                if s.markerEnabled && s.markerShapePresent then g.markers else []
              labelNodes := if s.label.enabled then g.labels else []
              markerSelectionData := g.markers }
    | _, _ => scene1

/-- The per-datum polygon invariant: the point array has length `2*n` and
rows `0..r-1` have their top and bottom points assigned with equal x. -/
def PtsInv (n r : Nat) (pts : List (Option Point)) : Prop :=
  pts.length = 2 * n ∧
  ∀ i < r, ∃ p q : Point,
    pts[i]? = some (some p) ∧ pts[2 * n - 1 - i]? = some (some q) ∧ p.x = q.x

/-- The accumulator invariant inside a row `r` of `n`, after the keys
`0..j0-1` of that row (out of `k`) have been processed. -/
def InnerInv (n r k j0 : Nat) (acc : GenAcc) : Prop :=
  acc.areaData.length = (if r = 0 then j0 else k) ∧
  ∀ j d, acc.areaData[j]? = some d →
    PtsInv n (if j < j0 then r + 1 else r) d.points

/-! ### Concrete scenarios from the spec -/

/-- The category value of the January row. -/
def strJan : String := "Jan"

/-- The category value of the February row. -/
def strFeb : String := "Feb"

/-- The row `{x:'Jan', a:5, b:-3}`. -/
def datJan : Datum :=
  ⟨fun k => if k = "x" then some strJan else none,
   fun k => if k = "a" then some (.fin 5) else if k = "b" then some (.fin (-3)) else none⟩

/-- The row `{x:'Feb', a:10, b:-15}`. -/
def datFeb : Datum :=
  ⟨fun k => if k = "x" then some strFeb else none,
   fun k => if k = "a" then some (.fin 10) else if k = "b" then some (.fin (-15)) else none⟩

/-- The extent scenario: rows Jan/Feb, value keys `a`, `b`, no
normalization. -/
def sC5 : AreaSeriesState :=
  ⟨"x", ["a", "b"], fun _ => true, some [datJan, datFeb], none⟩

/-- The row `{x:'Jan', a:4, b:-1}`. -/
def datC1 : Datum :=
  ⟨fun k => if k = "x" then some strJan else none,
   fun k => if k = "a" then some (.fin 4) else if k = "b" then some (.fin (-1)) else none⟩

/-- The normalization scenario: one row `{a:4, b:-1}`, target 10. -/
def sC1 : AreaSeriesState :=
  ⟨"x", ["a", "b"], fun _ => true, some [datC1], some 10⟩

/-- The row `{x:'Jan', a:0, b:-1}`: its non-negative total is 0 while it
still has a nonzero (negative) entry. -/
def datC2 : Datum :=
  ⟨fun k => if k = "x" then some strJan else none,
   fun k => if k = "a" then some (.fin 0) else if k = "b" then some (.fin (-1)) else none⟩

/-- Normalization over the row `{a:0, b:-1}` with target 10: the entry 0 is
divided by the row maximum 0. -/
def sC2 : AreaSeriesState :=
  ⟨"x", ["a", "b"], fun _ => true, some [datC2], some 10⟩

/-- A state whose category key is empty but which has data and value keys. -/
def sC4 : AreaSeriesState := ⟨"", ["a"], fun _ => true, some [datJan], none⟩

/-- A label configuration with everything off. -/
def label0 : LabelConfig := ⟨false, none, none, 0, emptyKey, emptyKey, none⟩

/-- An unready update state: no chart and no axes, but a visible series
with nonempty `xData`/`yData`. -/
def sC3 : SeriesUpdateState :=
  ⟨true, none, none, none, none, [none], [[.fin 1]], [], [], [], label0,
   false, false⟩

/-- A retained scene with one fill node and a hidden root group. -/
def scene3 : SceneState := ⟨false, [⟨emptyKey, []⟩], [], [], [], []⟩

/-- An x axis whose scale sends everything to pixel 0. -/
def xAxis6 : XAxisModel := ⟨fun _ => 0, none⟩

/-- A y axis whose scale is the identity. -/
def yAxis6 : YAxisModel := ⟨fun v => v, none⟩

/-- An empty raw row. -/
def dat6 : Datum := ⟨fun _ => none, fun _ => none⟩

/-- A ready update state with 2 rows and 1 value key. -/
def sC6 : SeriesUpdateState :=
  ⟨true, some ⟨false, false⟩, some xAxis6, some yAxis6, some [dat6, dat6],
   [none, none], [[.fin 1], [.fin (-2)]], [emptyKey], [], [], label0,
   false, false⟩

/-! ### Theorems -/

/-- C7: a single reversed range selection (end row before start row) over
3 rows and 1 column with values 1, 2, 3 aggregates to sum 6, count 3,
min 0 (seeded at 0, not at the first value), max 3 and average 2, and all
five status items are shown with those values. -/
theorem statusBar_reversed_range_c7 :
    (runAggregation lookupC7 [rangeC7]).sum = 6 ∧
    (runAggregation lookupC7 [rangeC7]).count = 3 ∧
    (runAggregation lookupC7 [rangeC7]).min = 0 ∧
    (runAggregation lookupC7 [rangeC7]).max = 3 ∧
    (onRangeSelectionChanged lookupC7 [rangeC7] statusBar0) =
      ⟨⟨true, 6⟩, ⟨true, 3⟩, ⟨true, 0⟩, ⟨true, 3⟩, ⟨true, 2⟩⟩ := by
  norm_num [runAggregation, processRange, rangeRows, processCell, initAcc, lookupC7,
    rangeC7, coerceValue, onRangeSelectionChanged, statusBar0, List.range']

theorem processCell_seen_subset (lookup : Nat → Nat → CellValue) (row : Nat)
    (acc : AggAcc) (col : Nat) :
    acc.seen ⊆ (processCell lookup row acc col).seen := by
  simp only [processCell]
  split
  · exact fun x hx => hx
  · split <;> exact fun x hx => List.mem_cons_of_mem _ hx

theorem mem_seen_processCell (lookup : Nat → Nat → CellValue) (row : Nat)
    (acc : AggAcc) (col : Nat) :
    (row, col) ∈ (processCell lookup row acc col).seen := by
  simp only [processCell]
  split
  · assumption
  · split <;> exact List.mem_cons_self _ _

theorem processCell_of_seen (lookup : Nat → Nat → CellValue) (row : Nat)
    (acc : AggAcc) (col : Nat) (h : (row, col) ∈ acc.seen) :
    processCell lookup row acc col = acc := by
  simp [processCell, h]

theorem seen_subset_foldl_cols (lookup : Nat → Nat → CellValue) (row : Nat)
    (cols : List Nat) (acc : AggAcc) :
    acc.seen ⊆ (cols.foldl (processCell lookup row) acc).seen := by
  induction cols generalizing acc with
  | nil => exact fun x hx => hx
  | cons c cs ih =>
      exact fun x hx => ih _ (processCell_seen_subset lookup row acc c hx)

theorem mem_seen_foldl_cols (lookup : Nat → Nat → CellValue) (row : Nat)
    (cols : List Nat) (acc : AggAcc) (c : Nat) (h : c ∈ cols) :
    (row, c) ∈ (cols.foldl (processCell lookup row) acc).seen := by
  induction cols generalizing acc with
  | nil => cases h
  | cons d ds ih =>
      rcases List.mem_cons.mp h with h1 | h2
      · subst h1
        exact seen_subset_foldl_cols lookup row ds _
          (mem_seen_processCell lookup row acc c)
      · exact ih _ h2

theorem foldl_cols_of_seen (lookup : Nat → Nat → CellValue) (row : Nat)
    (cols : List Nat) (acc : AggAcc)
    (h : ∀ c ∈ cols, (row, c) ∈ acc.seen) :
    cols.foldl (processCell lookup row) acc = acc := by
  induction cols with
  | nil => rfl
  | cons c cs ih =>
      rw [List.foldl_cons, processCell_of_seen lookup row acc c (h c (List.mem_cons_self _ _))]
      exact ih fun d hd => h d (List.mem_cons_of_mem _ hd)

theorem seen_subset_foldl_rows (lookup : Nat → Nat → CellValue)
    (cols : List Nat) (rows : List Nat) (acc : AggAcc) :
    acc.seen ⊆
      (rows.foldl (fun a row => cols.foldl (processCell lookup row) a) acc).seen := by
  induction rows generalizing acc with
  | nil => exact fun x hx => hx
  | cons row rest ih =>
      exact fun x hx => ih _ (seen_subset_foldl_cols lookup row cols acc hx)

theorem mem_seen_foldl_rows (lookup : Nat → Nat → CellValue)
    (cols : List Nat) (rows : List Nat) (acc : AggAcc)
    (row c : Nat) (hr : row ∈ rows) (hc : c ∈ cols) :
    (row, c) ∈
      (rows.foldl (fun a row => cols.foldl (processCell lookup row) a) acc).seen := by
  induction rows generalizing acc with
  | nil => cases hr
  | cons d ds ih =>
      rcases List.mem_cons.mp hr with h1 | h2
      · subst h1
        exact seen_subset_foldl_rows lookup cols ds _
          (mem_seen_foldl_cols lookup row cols acc c hc)
      · exact ih _ h2

theorem foldl_rows_of_seen (lookup : Nat → Nat → CellValue)
    (cols : List Nat) (rows : List Nat) (acc : AggAcc)
    (h : ∀ row ∈ rows, ∀ c ∈ cols, (row, c) ∈ acc.seen) :
    rows.foldl (fun a row => cols.foldl (processCell lookup row) a) acc = acc := by
  induction rows with
  | nil => rfl
  | cons row rest ih =>
      rw [List.foldl_cons,
        foldl_cols_of_seen lookup row cols acc (h row (List.mem_cons_self _ _))]
      exact ih fun d hd => h d (List.mem_cons_of_mem _ hd)

theorem processRange_idem (lookup : Nat → Nat → CellValue) (acc : AggAcc)
    (r : CellRange) :
    processRange lookup (processRange lookup acc r) r = processRange lookup acc r := by
  unfold processRange
  exact foldl_rows_of_seen lookup r.columns (rangeRows r) _
    fun row hr c hc => mem_seen_foldl_rows lookup r.columns (rangeRows r) acc row c hr hc

/-- C8: each distinct cell identity contributes to the aggregates at most
once per pass: the dedup set is shared across all ranges, so aggregating a
pass in which a range's coverage appears twice gives the same result as
aggregating with the duplicate coverage removed. -/
theorem statusBar_dedup_c8 (lookup : Nat → Nat → CellValue) (r : CellRange)
    (rs : List CellRange) :
    runAggregation lookup (r :: r :: rs) = runAggregation lookup (r :: rs) := by
  simp only [runAggregation, List.isEmpty_cons, Bool.false_eq_true, if_false,
    List.foldl_cons]
  rw [processRange_idem]

/-- C9: every status item's visibility after a pass equals `count > 1`, and a
selection visiting exactly one cell (one row, one column), numeric or not,
has `count = 1` and leaves every status item hidden. -/
theorem statusBar_single_cell_suppression_c9 :
    (∀ (lookup : Nat → Nat → CellValue) (ranges : List CellRange) (st : StatusBarState),
      ((onRangeSelectionChanged lookup ranges st).sumItem.visible =
          decide (1 < (runAggregation lookup ranges).count)) ∧
      ((onRangeSelectionChanged lookup ranges st).countItem.visible =
          decide (1 < (runAggregation lookup ranges).count)) ∧
      ((onRangeSelectionChanged lookup ranges st).minItem.visible =
          decide (1 < (runAggregation lookup ranges).count)) ∧
      ((onRangeSelectionChanged lookup ranges st).maxItem.visible =
          decide (1 < (runAggregation lookup ranges).count)) ∧
      ((onRangeSelectionChanged lookup ranges st).avgItem.visible =
          decide (1 < (runAggregation lookup ranges).count))) ∧
    (∀ (lookup : Nat → Nat → CellValue) (r c : Nat) (st : StatusBarState),
      (runAggregation lookup [⟨r, r, [c]⟩]).count = 1 ∧
      (onRangeSelectionChanged lookup [⟨r, r, [c]⟩] st).sumItem.visible = false ∧
      (onRangeSelectionChanged lookup [⟨r, r, [c]⟩] st).countItem.visible = false ∧
      (onRangeSelectionChanged lookup [⟨r, r, [c]⟩] st).minItem.visible = false ∧
      (onRangeSelectionChanged lookup [⟨r, r, [c]⟩] st).maxItem.visible = false ∧
      (onRangeSelectionChanged lookup [⟨r, r, [c]⟩] st).avgItem.visible = false) := by
  have hvis : ∀ (lookup : Nat → Nat → CellValue) (ranges : List CellRange)
      (st : StatusBarState),
      ((onRangeSelectionChanged lookup ranges st).sumItem.visible =
          decide (1 < (runAggregation lookup ranges).count)) ∧
      ((onRangeSelectionChanged lookup ranges st).countItem.visible =
          decide (1 < (runAggregation lookup ranges).count)) ∧
      ((onRangeSelectionChanged lookup ranges st).minItem.visible =
          decide (1 < (runAggregation lookup ranges).count)) ∧
      ((onRangeSelectionChanged lookup ranges st).maxItem.visible =
          decide (1 < (runAggregation lookup ranges).count)) ∧
      ((onRangeSelectionChanged lookup ranges st).avgItem.visible =
          decide (1 < (runAggregation lookup ranges).count)) := by
    intro lookup ranges st
    simp [onRangeSelectionChanged]
  have hcount : ∀ (lookup : Nat → Nat → CellValue) (r c : Nat),
      (runAggregation lookup [⟨r, r, [c]⟩]).count = 1 := by
    intro lookup r c
    have hrows : rangeRows ⟨r, r, [c]⟩ = [r] := by
      simp [rangeRows]
    simp only [runAggregation, List.isEmpty_cons, Bool.false_eq_true, if_false,
      List.foldl_cons, List.foldl_nil, processRange, hrows]
    simp only [processCell, initAcc, List.not_mem_nil, if_neg, if_false]
    split <;> rfl
  refine ⟨hvis, fun lookup r c st => ?_⟩
  have h1 := hvis lookup [⟨r, r, [c]⟩] st
  have h2 := hcount lookup r c
  rw [h2] at h1
  exact ⟨h2, by simpa using h1⟩

/-! ### Signed parts of a row -/

theorem negPart_cons_neg {v : ℚ} (l : List ℚ) (hv : v < 0) :
    negPart (v :: l) = v + negPart l := by
  simp [negPart, List.filter_cons, hv]

theorem negPart_cons_nonneg {v : ℚ} (l : List ℚ) (hv : ¬ v < 0) :
    negPart (v :: l) = negPart l := by
  simp [negPart, List.filter_cons, hv]

theorem nonnegPart_cons_neg {v : ℚ} (l : List ℚ) (hv : v < 0) :
    nonnegPart (v :: l) = nonnegPart l := by
  simp [nonnegPart, List.filter_cons, hv, not_le.mpr hv]

theorem nonnegPart_cons_nonneg {v : ℚ} (l : List ℚ) (hv : ¬ v < 0) :
    nonnegPart (v :: l) = v + nonnegPart l := by
  simp [nonnegPart, List.filter_cons, hv, not_lt.mp hv]

theorem posPart_cons_pos {v : ℚ} (l : List ℚ) (hv : 0 < v) :
    posPart (v :: l) = v + posPart l := by
  simp [posPart, List.filter_cons, hv]

theorem posPart_cons_nonpos {v : ℚ} (l : List ℚ) (hv : ¬ 0 < v) :
    posPart (v :: l) = posPart l := by
  simp [posPart, List.filter_cons, hv]

theorem negPart_nonpos (l : List ℚ) : negPart l ≤ 0 := by
  induction l with
  | nil => simp [negPart]
  | cons v vs ih =>
      by_cases hv : v < 0
      · rw [negPart_cons_neg vs hv]; linarith
      · rw [negPart_cons_nonneg vs hv]; exact ih

theorem nonnegPart_nonneg (l : List ℚ) : 0 ≤ nonnegPart l := by
  induction l with
  | nil => simp [nonnegPart]
  | cons v vs ih =>
      by_cases hv : v < 0
      · rw [nonnegPart_cons_neg vs hv]; exact ih
      · rw [nonnegPart_cons_nonneg vs hv]; push_neg at hv; linarith

theorem posPart_eq_nonnegPart (l : List ℚ) : posPart l = nonnegPart l := by
  induction l with
  | nil => rfl
  | cons v vs ih =>
      rcases lt_trichotomy v 0 with hv | hv | hv
      · rw [posPart_cons_nonpos vs (by linarith), nonnegPart_cons_neg vs hv]; exact ih
      · subst hv
        rw [posPart_cons_nonpos vs (lt_irrefl 0), nonnegPart_cons_nonneg vs (lt_irrefl 0), ih]
        ring
      · rw [posPart_cons_pos vs hv, nonnegPart_cons_nonneg vs (by linarith), ih]

theorem negPart_le_of_mem {v : ℚ} {l : List ℚ} (hmem : v ∈ l) (hv : v < 0) :
    negPart l ≤ v := by
  induction l with
  | nil => cases hmem
  | cons w ws ih =>
      rcases List.mem_cons.mp hmem with h1 | h2
      · subst h1
        rw [negPart_cons_neg ws hv]
        have := negPart_nonpos ws
        linarith
      · by_cases hw : w < 0
        · rw [negPart_cons_neg ws hw]
          have := ih h2
          linarith
        · rw [negPart_cons_nonneg ws hw]; exact ih h2

theorem le_nonnegPart_of_mem {v : ℚ} {l : List ℚ} (hmem : v ∈ l) (hv : 0 ≤ v) :
    v ≤ nonnegPart l := by
  induction l with
  | nil => cases hmem
  | cons w ws ih =>
      rcases List.mem_cons.mp hmem with h1 | h2
      · subst h1
        rw [nonnegPart_cons_nonneg ws (by linarith)]
        have := nonnegPart_nonneg ws
        linarith
      · by_cases hw : w < 0
        · rw [nonnegPart_cons_neg ws hw]; exact ih h2
        · rw [nonnegPart_cons_nonneg ws hw]
          have := ih h2
          push_neg at hw
          linarith

theorem negPart_eq_zero (l : List ℚ) (h : ∀ v ∈ l, ¬ v < 0) : negPart l = 0 := by
  induction l with
  | nil => rfl
  | cons w ws ih =>
      rw [negPart_cons_nonneg ws (h w (List.mem_cons_self _ _))]
      exact ih fun v hv => h v (List.mem_cons_of_mem _ hv)

theorem findMinMax_go (l : List ℚ) (a b : ℚ) :
    l.foldl (fun mm v => if v < 0 then ⟨mm.min + v, mm.max⟩ else ⟨mm.min, mm.max + v⟩)
        (⟨a, b⟩ : MinMax) =
      ⟨a + negPart l, b + nonnegPart l⟩ := by
  induction l generalizing a b with
  | nil => simp [negPart, nonnegPart]
  | cons v vs ih =>
      by_cases hv : v < 0
      · rw [List.foldl_cons, if_pos hv]
        rw [ih, negPart_cons_neg vs hv, nonnegPart_cons_neg vs hv]
        simp [MinMax.mk.injEq]
        ring
      · rw [List.foldl_cons, if_neg hv]
        rw [ih, negPart_cons_nonneg vs hv, nonnegPart_cons_nonneg vs hv]
        simp [MinMax.mk.injEq]
        ring

/-- The spec-modelled `findMinMax` computes exactly the row's negative and
non-negative signed parts. -/
theorem findMinMax_eq (l : List ℚ) : findMinMax l = ⟨negPart l, nonnegPart l⟩ := by
  have h := findMinMax_go l 0 0
  simpa [findMinMax] using h

/-! ### Sums of a scaled row -/

theorem jsNegSum_nil : jsNegSum [] = 0 := rfl

theorem jsNegSum_cons_fin_neg {q : ℚ} (l : List JSNum) (hq : q < 0) :
    jsNegSum (.fin q :: l) = q + jsNegSum l := by
  simp [jsNegSum, List.filterMap_cons, hq]

theorem jsNegSum_cons_fin_nonneg {q : ℚ} (l : List JSNum) (hq : ¬ q < 0) :
    jsNegSum (.fin q :: l) = jsNegSum l := by
  simp [jsNegSum, List.filterMap_cons, hq]

theorem jsNegSum_cons_nan (l : List JSNum) : jsNegSum (.nan :: l) = jsNegSum l := by
  simp [jsNegSum, List.filterMap_cons]

theorem jsNegSum_cons_pinf (l : List JSNum) : jsNegSum (.pinf :: l) = jsNegSum l := by
  simp [jsNegSum, List.filterMap_cons]

theorem jsPosSum_nil : jsPosSum [] = 0 := rfl

theorem jsPosSum_cons_fin_pos {q : ℚ} (l : List JSNum) (hq : 0 < q) :
    jsPosSum (.fin q :: l) = q + jsPosSum l := by
  simp [jsPosSum, List.filterMap_cons, hq]

theorem jsPosSum_cons_fin_nonpos {q : ℚ} (l : List JSNum) (hq : ¬ 0 < q) :
    jsPosSum (.fin q :: l) = jsPosSum l := by
  simp [jsPosSum, List.filterMap_cons, hq]

theorem jsPosSum_cons_nan (l : List JSNum) : jsPosSum (.nan :: l) = jsPosSum l := by
  simp [jsPosSum, List.filterMap_cons]

theorem jsPosSum_cons_pinf (l : List JSNum) : jsPosSum (.pinf :: l) = jsPosSum l := by
  simp [jsPosSum, List.filterMap_cons]

theorem scaleEntry_neg {m M T v : ℚ} (hm : m ≠ 0) (hv : v < 0) :
    scaleEntry m M T v = .fin (-v / m * T) := by
  simp [scaleEntry, hv, jsDiv, hm, JSNum.mulFin]

theorem scaleEntry_nonneg {m M T v : ℚ} (hM : M ≠ 0) (hv : ¬ v < 0) :
    scaleEntry m M T v = .fin (v / M * T) := by
  simp [scaleEntry, hv, jsDiv, hM, JSNum.mulFin]

theorem scaleEntry_neg_mzero {M T v : ℚ} (hv : v < 0) (hT : 0 < T) :
    scaleEntry 0 M T v = .pinf := by
  have h1 : (0:ℚ) < -v := by linarith
  simp [scaleEntry, hv, jsDiv, h1, JSNum.mulFin, hT, h1.ne']

theorem scaleEntry_nonneg_Mzero {m T v : ℚ} (hv : ¬ v < 0) (hT : 0 < T) :
    scaleEntry m 0 T v = if v = 0 then JSNum.nan else .pinf := by
  by_cases h0 : v = 0
  · simp [scaleEntry, hv, jsDiv, h0, JSNum.mulFin]
  · have h1 : 0 < v := lt_of_le_of_ne (not_lt.mp hv) (Ne.symm h0)
    simp [scaleEntry, hv, jsDiv, h0, h1, JSNum.mulFin, hT]

theorem jsNegSum_scaled {m M T : ℚ} (hm : m < 0) (hM : 0 ≤ M) (hT : 0 < T)
    (l : List ℚ) :
    jsNegSum (l.map (scaleEntry m M T)) = -negPart l / m * T := by
  induction l with
  | nil => simp [jsNegSum, negPart]
  | cons v vs ih =>
      rw [List.map_cons]
      by_cases hv : v < 0
      · have hval : -v / m * T < 0 :=
          mul_neg_of_neg_of_pos (div_neg_of_pos_of_neg (by linarith) hm) hT
        rw [scaleEntry_neg hm.ne hv, jsNegSum_cons_fin_neg _ hval, ih,
          negPart_cons_neg vs hv]
        ring
      · rcases eq_or_lt_of_le hM with hM0 | hMpos
        · subst hM0
          rw [scaleEntry_nonneg_Mzero hv hT]
          by_cases h0 : v = 0
          · rw [if_pos h0, jsNegSum_cons_nan, ih, negPart_cons_nonneg vs hv]
          · rw [if_neg h0, jsNegSum_cons_pinf, ih, negPart_cons_nonneg vs hv]
        · have hval : 0 ≤ v / M * T :=
            mul_nonneg (div_nonneg (not_lt.mp hv) hMpos.le) hT.le
          rw [scaleEntry_nonneg hMpos.ne' hv,
            jsNegSum_cons_fin_nonneg _ (not_lt.mpr hval), ih,
            negPart_cons_nonneg vs hv]

theorem jsNegSum_scaled_mzero {M T : ℚ} (hM : 0 ≤ M) (hT : 0 < T) (l : List ℚ) :
    jsNegSum (l.map (scaleEntry 0 M T)) = 0 := by
  induction l with
  | nil => rfl
  | cons v vs ih =>
      rw [List.map_cons]
      by_cases hv : v < 0
      · rw [scaleEntry_neg_mzero hv hT, jsNegSum_cons_pinf, ih]
      · rcases eq_or_lt_of_le hM with hM0 | hMpos
        · subst hM0
          rw [scaleEntry_nonneg_Mzero hv hT]
          by_cases h0 : v = 0
          · rw [if_pos h0, jsNegSum_cons_nan, ih]
          · rw [if_neg h0, jsNegSum_cons_pinf, ih]
        · have hval : 0 ≤ v / M * T :=
            mul_nonneg (div_nonneg (not_lt.mp hv) hMpos.le) hT.le
          rw [scaleEntry_nonneg hMpos.ne' hv,
            jsNegSum_cons_fin_nonneg _ (not_lt.mpr hval), ih]

theorem jsPosSum_scaled {m M T : ℚ} (hm : m ≤ 0) (hM : 0 < M) (hT : 0 < T)
    (l : List ℚ) :
    jsPosSum (l.map (scaleEntry m M T)) = posPart l / M * T := by
  induction l with
  | nil => simp [jsPosSum, posPart]
  | cons v vs ih =>
      rw [List.map_cons]
      by_cases hv : v < 0
      · rcases eq_or_lt_of_le hm with hm0 | hmneg
        · subst hm0
          rw [scaleEntry_neg_mzero hv hT, jsPosSum_cons_pinf, ih,
            posPart_cons_nonpos vs (by linarith)]
        · have hval : -v / m * T < 0 :=
            mul_neg_of_neg_of_pos (div_neg_of_pos_of_neg (by linarith) hmneg) hT
          rw [scaleEntry_neg hmneg.ne hv,
            jsPosSum_cons_fin_nonpos _ (not_lt.mpr hval.le), ih,
            posPart_cons_nonpos vs (by linarith)]
      · rw [scaleEntry_nonneg hM.ne' hv]
        by_cases hpos : 0 < v
        · have hval : 0 < v / M * T := mul_pos (div_pos hpos hM) hT
          rw [jsPosSum_cons_fin_pos _ hval, ih, posPart_cons_pos vs hpos]
          ring
        · have h0 : v = 0 := le_antisymm (not_lt.mp hpos) (not_lt.mp hv)
          subst h0
          have hz : (0:ℚ) / M * T = 0 := by ring
          rw [hz, jsPosSum_cons_fin_nonpos _ (lt_irrefl 0), ih,
            posPart_cons_nonpos vs hpos]

theorem jsPosSum_scaled_Mzero {m T : ℚ} (hm : m ≤ 0) (hT : 0 < T) (l : List ℚ) :
    jsPosSum (l.map (scaleEntry m 0 T)) = 0 := by
  induction l with
  | nil => rfl
  | cons v vs ih =>
      rw [List.map_cons]
      by_cases hv : v < 0
      · rcases eq_or_lt_of_le hm with hm0 | hmneg
        · subst hm0
          rw [scaleEntry_neg_mzero hv hT, jsPosSum_cons_pinf, ih]
        · have hval : -v / m * T < 0 :=
            mul_neg_of_neg_of_pos (div_neg_of_pos_of_neg (by linarith) hmneg) hT
          rw [scaleEntry_neg hmneg.ne hv,
            jsPosSum_cons_fin_nonpos _ (not_lt.mpr hval.le), ih]
      · rw [scaleEntry_nonneg_Mzero hv hT]
        by_cases h0 : v = 0
        · rw [if_pos h0, jsPosSum_cons_nan, ih]
        · rw [if_neg h0, jsPosSum_cons_pinf, ih]

/-- Normalizing a row with any nonzero contribution makes the larger of
the absolute negative sum and the positive sum equal to the target. -/
theorem scaleRow_target {T : ℚ} (hT : 0 < T) (row : List ℚ)
    (hnz : ∃ v ∈ row, v ≠ 0) :
    max |jsNegSum (scaleRow T row)| (jsPosSum (scaleRow T row)) = T := by
  have hrow : scaleRow T row = row.map (scaleEntry (negPart row) (nonnegPart row) T) := by
    simp [scaleRow, findMinMax_eq]
  rw [hrow]
  have hm0 : negPart row ≤ 0 := negPart_nonpos row
  have hM0 : 0 ≤ nonnegPart row := nonnegPart_nonneg row
  by_cases hneg : ∃ v ∈ row, v < 0
  · obtain ⟨v, hv_mem, hv⟩ := hneg
    have hm : negPart row < 0 := lt_of_le_of_lt (negPart_le_of_mem hv_mem hv) hv
    have h1 : jsNegSum (row.map (scaleEntry (negPart row) (nonnegPart row) T)) = -T := by
      rw [jsNegSum_scaled hm hM0 hT row, div_mul_eq_mul_div, div_eq_iff hm.ne]
      ring
    rw [h1, abs_neg, abs_of_pos hT]
    rcases eq_or_lt_of_le hM0 with hM | hM
    · rw [← hM] at *
      rw [jsPosSum_scaled_Mzero hm0 hT row]
      exact max_eq_left hT.le
    · rw [jsPosSum_scaled hm0 hM hT row, posPart_eq_nonnegPart]
      have h2 : nonnegPart row / nonnegPart row * T = T := by
        rw [div_self hM.ne', one_mul]
      rw [h2, max_self]
  · push_neg at hneg
    have hm : negPart row = 0 := negPart_eq_zero row fun v hv => not_lt.mpr (hneg v hv)
    obtain ⟨v, hv_mem, hv_ne⟩ := hnz
    have hv_pos : 0 < v := lt_of_le_of_ne (hneg v hv_mem) (Ne.symm hv_ne)
    have hM : 0 < nonnegPart row :=
      lt_of_lt_of_le hv_pos (le_nonnegPart_of_mem hv_mem hv_pos.le)
    rw [hm, jsNegSum_scaled_mzero hM0 hT row, jsPosSum_scaled (le_refl 0) hM hT row,
      posPart_eq_nonnegPart]
    have h2 : nonnegPart row / nonnegPart row * T = T := by
      rw [div_self hM.ne', one_mul]
    rw [h2, abs_zero]
    exact max_eq_right hT.le

/-- Normalization preserves the sign of every signed entry. -/
theorem scaleRow_sign {T : ℚ} (hT : 0 < T) (row : List ℚ) (j : ℕ)
    (hj : j < row.length) :
    (row[j] < 0 → ∃ q, q < 0 ∧ (scaleRow T row)[j]? = some (.fin q)) ∧
    (0 < row[j] → ∃ q, 0 < q ∧ (scaleRow T row)[j]? = some (.fin q)) := by
  have hrow : scaleRow T row = row.map (scaleEntry (negPart row) (nonnegPart row) T) := by
    simp [scaleRow, findMinMax_eq]
  have hmem : row[j] ∈ row := List.getElem_mem hj
  have hget : (scaleRow T row)[j]? =
      some (scaleEntry (negPart row) (nonnegPart row) T row[j]) := by
    rw [hrow, List.getElem?_map, List.getElem?_eq_getElem hj]
    rfl
  constructor
  · intro hneg
    have hm : negPart row < 0 := lt_of_le_of_lt (negPart_le_of_mem hmem hneg) hneg
    refine ⟨-row[j] / negPart row * T, ?_, ?_⟩
    · exact mul_neg_of_neg_of_pos (div_neg_of_pos_of_neg (by linarith) hm) hT
    · rw [hget, scaleEntry_neg hm.ne hneg]
  · intro hpos
    have hM : 0 < nonnegPart row :=
      lt_of_lt_of_le hpos (le_nonnegPart_of_mem hmem hpos.le)
    refine ⟨row[j] / nonnegPart row * T, mul_pos (div_pos hpos hM) hT, ?_⟩
    rw [hget, scaleEntry_nonneg hM.ne' (not_lt.mpr hpos.le)]

/-- With an active target, `processData` rescales exactly the built rows. -/
theorem processData_yData_norm (s : AreaSeriesState) (T : ℚ)
    (hstore : s.normalizedTo = some T) (hT : T ≠ 0) :
    (processData s).yData = (buildYData s).map (scaleRow T) := by
  simp [processData, activeNormTarget, hstore, hT]

/-- C1: with an active normalization target `T > 0`, `processData` rescales
every row's value vector; for every row with any nonzero contribution the
larger of the absolute sum of the negative entries and the sum of the
positive entries of the scaled row equals `T`, and every signed entry keeps
its sign. -/
theorem area_normalization_target_c1 (s : AreaSeriesState) (T : ℚ)
    (hstore : s.normalizedTo = some T) (hT : 0 < T) :
    (processData s).yData = (buildYData s).map (scaleRow T) ∧
    ∀ row ∈ buildYData s, (∃ v ∈ row, v ≠ 0) →
      max |jsNegSum (scaleRow T row)| (jsPosSum (scaleRow T row)) = T ∧
      ∀ j (hj : j < row.length),
        (row[j] < 0 → ∃ q, q < 0 ∧ (scaleRow T row)[j]? = some (.fin q)) ∧
        (0 < row[j] → ∃ q, 0 < q ∧ (scaleRow T row)[j]? = some (.fin q)) := by
  refine ⟨processData_yData_norm s T hstore hT.ne', fun row _ hnz => ?_⟩
  exact ⟨scaleRow_target hT row hnz, fun j hj => scaleRow_sign hT row j hj⟩

/-- C1 witness: the spec's own scenario, target 10 on the row `{a:4, b:-1}`:
the processed row is `[10, -10]` and the normalized magnitude is 10. -/
theorem area_normalization_target_c1_witness :
    (processData sC1).yData = [[.fin 10, .fin (-10)]] ∧
    max |jsNegSum (scaleRow 10 [4, -1])| (jsPosSum (scaleRow 10 [4, -1])) = 10 := by
  have h := area_normalization_target_c1 sC1 10 rfl (by norm_num)
  have hy : buildYData sC1 = [[4, -1]] := rfl
  refine ⟨?_, (h.2 [4, -1] (by rw [hy]; exact List.mem_cons_self _ _)
    ⟨4, by simp, by norm_num⟩).1⟩
  rw [h.1, hy]
  norm_num [scaleRow, findMinMax, scaleEntry, jsDiv, JSNum.mulFin]

/-- C2, amended: during normalization the divisor of a negative entry (the
row's negative total) is never 0, and when the divisor of a non-negative
entry (the row's non-negative total) is 0, the entry is itself 0 — but its
scaled result is NaN (JS `0/0`), not 0. -/
theorem area_normalization_divisor_c2 (s : AreaSeriesState) (T : ℚ)
    (hstore : s.normalizedTo = some T) (hT : 0 < T) :
    (processData s).yData = (buildYData s).map (scaleRow T) ∧
    ∀ row ∈ buildYData s, ∀ j (hj : j < row.length),
      (row[j] < 0 → (findMinMax row).min ≠ 0) ∧
      (¬ row[j] < 0 → (findMinMax row).max = 0 →
        row[j] = 0 ∧ (scaleRow T row)[j]? = some .nan) := by
  refine ⟨processData_yData_norm s T hstore hT.ne', fun row _ j hj => ?_⟩
  have hmem : row[j] ∈ row := List.getElem_mem hj
  have hrow : scaleRow T row = row.map (scaleEntry (negPart row) (nonnegPart row) T) := by
    simp [scaleRow, findMinMax_eq]
  constructor
  · intro hneg
    rw [findMinMax_eq]
    exact ne_of_lt (lt_of_le_of_lt (negPart_le_of_mem hmem hneg) hneg)
  · intro hnn hmax
    rw [findMinMax_eq] at hmax
    have hmax' : nonnegPart row = 0 := hmax
    have h0 : row[j] = 0 :=
      le_antisymm (hmax' ▸ le_nonnegPart_of_mem hmem (not_lt.mp hnn)) (not_lt.mp hnn)
    refine ⟨h0, ?_⟩
    rw [hrow, List.getElem?_map, List.getElem?_eq_getElem hj, Option.map_some',
      hmax', scaleEntry_nonneg_Mzero hnn hT, if_pos h0]

/-- C2 counterexample: with target 10 on the row `{a:0, b:-1}`, the divisor
used for the entry 0 (the row's non-negative total) is 0, the entry is 0,
and the scaled result stored by `processData` is NaN — not 0 as the claim
states. -/
theorem area_divisor_zero_counterexample_c2 :
    (findMinMax ((buildYData sC2).getD 0 [])).max = 0 ∧
    ((buildYData sC2).getD 0 []).getD 0 1 = 0 ∧
    ((processData sC2).yData.getD 0 []).getD 0 (.fin 0) = .nan ∧
    JSNum.nan ≠ .fin 0 := by
  have hy : buildYData sC2 = [[0, -1]] := rfl
  have hn : activeNormTarget sC2 = some 10 := rfl
  refine ⟨?_, ?_, ?_, by simp⟩
  · rw [hy]
    norm_num [findMinMax]
  · rw [hy]
    norm_num
  · simp only [processData, hy, hn]
    norm_num [findMinMax, findLargestMinMax, scaleRow, scaleEntry, jsDiv, JSNum.mulFin]

/-- C2 witness: the divisor facts of the amended claim evaluated on the
`{a:0, b:-1}` scenario: the second entry is negative so its divisor -1 is
nonzero, and the first entry 0 has divisor 0 with scaled result NaN. -/
theorem area_normalization_divisor_c2_witness :
    (findMinMax [(0 : ℚ), -1]).min ≠ 0 ∧
    ((0 : ℚ) = 0 ∧ (scaleRow 10 [(0 : ℚ), -1])[0]? = some .nan) := by
  have h := area_normalization_divisor_c2 sC2 10 rfl (by norm_num)
  have hy : buildYData sC2 = [[0, -1]] := rfl
  have hmem : [(0 : ℚ), -1] ∈ buildYData sC2 := by
    rw [hy]; exact List.mem_cons_self _ _
  have h2 := h.2 [(0 : ℚ), -1] hmem
  have ha := (h2 1 (by norm_num)).1 (by norm_num)
  have hb := (h2 0 (by norm_num)).2 (by norm_num) (by norm_num [findMinMax])
  exact ⟨ha, hb⟩

/-- C4, amended: `processData` never returns a failure flag — it returns
`true` in every case; when the category key or the value-key list is empty
it processes an empty data set, producing empty `xData` and `yData` (and
still a 2-element domain extent, by the result type). -/
theorem processData_always_true_c4 (s : AreaSeriesState) :
    (processData s).returned = true ∧
    ((s.xKey = "" ∨ s.yKeys = []) →
      (processData s).xData = [] ∧ (processData s).yData = []) := by
  refine ⟨rfl, fun h => ?_⟩
  have hd : seriesData s = [] := by
    rcases h with h | h <;> simp [seriesData, h]
  constructor
  · simp [processData, buildXData, hd]
  · simp [processData, buildYData, hd]
    cases activeNormTarget s <;> simp

/-- C4 counterexample: with an empty category key (but data and value keys
present) `processData` returns `true`, not a failure flag. -/
theorem processData_empty_key_counterexample_c4 :
    sC4.xKey = "" ∧ (processData sC4).returned = true := ⟨rfl, rfl⟩

/-- C4 witness: the amended claim evaluated at the empty-category-key
state. -/
theorem processData_always_true_c4_witness :
    (processData sC4).returned = true ∧
    (processData sC4).xData = [] ∧ (processData sC4).yData = [] := by
  have h := processData_always_true_c4 sC4
  exact ⟨h.1, (h.2 (Or.inl rfl)).1, (h.2 (Or.inl rfl)).2⟩

theorem ite_lt_min (a b : ℚ) : (if b < a then b else a) = min a b := by
  rcases le_or_lt a b with h | h
  · rw [if_neg (not_lt.mpr h), min_eq_left h]
  · rw [if_pos h, min_eq_right h.le]

theorem ite_gt_max (a b : ℚ) : (if b > a then b else a) = max a b := by
  rcases le_or_lt b a with h | h
  · rw [if_neg (not_lt.mpr h), max_eq_left h]
  · rw [if_pos h, max_eq_right h.le]

theorem findLargestMinMax_go (totals : List MinMax) (a b : ℚ) :
    totals.foldl
        (fun acc total =>
          ⟨if total.min < acc.min then total.min else acc.min,
           if total.max > acc.max then total.max else acc.max⟩)
        (⟨a, b⟩ : MinMax) =
      ⟨(totals.map MinMax.min).foldl min a, (totals.map MinMax.max).foldl max b⟩ := by
  induction totals generalizing a b with
  | nil => rfl
  | cons t ts ih =>
      rw [List.foldl_cons, List.map_cons, List.map_cons, List.foldl_cons,
        List.foldl_cons]
      rw [show (⟨if t.min < a then t.min else a,
            if t.max > b then t.max else b⟩ : MinMax) =
          ⟨min a t.min, max b t.max⟩ by rw [ite_lt_min, ite_gt_max]]
      exact ih (min a t.min) (max b t.max)

/-- `findLargestMinMax` folds `min`/`max` over the per-row totals, seeded
at 0. -/
theorem findLargestMinMax_eq (totals : List MinMax) :
    findLargestMinMax totals =
      ⟨(totals.map MinMax.min).foldl min 0, (totals.map MinMax.max).foldl max 0⟩ :=
  findLargestMinMax_go totals 0 0

/-- C5: without normalization, the domain extent is the pair (most negative
per-row minimum, or 0 if none is negative; largest per-row maximum, or 0 if
none is positive), widened from `[0,0]` to `[0,1]` when it collapses; on
the rows `{x:'Jan',a:5,b:-3}`, `{x:'Feb',a:10,b:-15}` with value keys
`['a','b']` the extent is `[-15, 10]`. -/
theorem area_domain_extent_c5 :
    (∀ s : AreaSeriesState, s.normalizedTo = none →
      (processData s).yDomain =
        (let lo := ((buildYData s).map fun r => (findMinMax r).min).foldl min 0
         let hi := ((buildYData s).map fun r => (findMinMax r).max).foldl max 0
         if lo = 0 ∧ hi = 0 then (0, 1) else (lo, hi))) ∧
    (processData sC5).yDomain = (-15, 10) := by
  have hgen : ∀ s : AreaSeriesState, s.normalizedTo = none →
      (processData s).yDomain =
        (let lo := ((buildYData s).map fun r => (findMinMax r).min).foldl min 0
         let hi := ((buildYData s).map fun r => (findMinMax r).max).foldl max 0
         if lo = 0 ∧ hi = 0 then (0, 1) else (lo, hi)) := by
    intro s hs
    have hn : activeNormTarget s = none := by simp [activeNormTarget, hs]
    simp only [processData, hn, findLargestMinMax_eq, fixNumericExtent,
      List.map_map]
    have hmin : (buildYData s).map (MinMax.min ∘ findMinMax) =
        (buildYData s).map fun r => (findMinMax r).min := rfl
    have hmax : (buildYData s).map (MinMax.max ∘ findMinMax) =
        (buildYData s).map fun r => (findMinMax r).max := rfl
    rw [hmin, hmax]
    set lo := ((buildYData s).map fun r => (findMinMax r).min).foldl min 0
    set hi := ((buildYData s).map fun r => (findMinMax r).max).foldl max 0
    by_cases h : lo = 0 ∧ hi = 0
    · rw [if_pos h, if_pos h, h.1]
    · rw [if_neg h, if_neg h]
  refine ⟨hgen, ?_⟩
  have h := hgen sC5 rfl
  rw [h]
  have hy : buildYData sC5 = [[5, -3], [10, -15]] := rfl
  rw [hy]
  norm_num [findMinMax]

/-- C5 witness: the general extent formula applied at the concrete
scenario yields `[-15, 10]`. -/
theorem area_domain_extent_c5_witness :
    (processData sC5).yDomain = (-15, 10) := by
  have h := area_domain_extent_c5.1 sC5 rfl
  rw [h]
  have hy : buildYData sC5 = [[5, -3], [10, -15]] := rfl
  rw [hy]
  norm_num [findMinMax]

/-- C10: the `normalizedTo` setter stores the absolute value of a nonzero
number and stores nothing for 0 or undefined (disabling normalization);
consequently processing with target `-v` equals processing with target
`v` exactly. -/
theorem normalizedTo_abs_c10 (v : ℚ) (s : AreaSeriesState) :
    (v ≠ 0 → normalizedToStore (some v) = some |v|) ∧
    normalizedToStore (some 0) = none ∧
    normalizedToStore none = none ∧
    processData (setNormalizedTo s (some (-v))) =
      processData (setNormalizedTo s (some v)) := by
  refine ⟨fun hv => by simp [normalizedToStore, hv], rfl, rfl, ?_⟩
  have h : normalizedToStore (some (-v)) = normalizedToStore (some v) := by
    simp [normalizedToStore, neg_eq_zero, abs_neg]
  simp [setNormalizedTo, h]

/-- C10 witness: assigning 3 stores 3, and processing the concrete data
with target -3 equals processing it with target 3. -/
theorem normalizedTo_abs_c10_witness :
    normalizedToStore (some (3 : ℚ)) = some 3 ∧
    processData (setNormalizedTo sC5 (some (-3))) =
      processData (setNormalizedTo sC5 (some 3)) := by
  have h := normalizedTo_abs_c10 3 sC5
  refine ⟨?_, h.2.2.2⟩
  have h1 := h.1 (by norm_num)
  rw [h1]
  norm_num

/-- C3, amended: when the inputs are not ready, `update` computes no
selection data and leaves every retained node list and the marker selection
data unchanged; its only effect is recomputing the root group's visibility
flag as (series visible ∧ xData nonempty ∧ yData nonempty). -/
theorem area_update_unready_c3 (s : SeriesUpdateState) (scene : SceneState)
    (h : notReady s = true) :
    update s scene =
      { scene with
        groupVisible := s.visible && (!s.xData.isEmpty && !s.yData.isEmpty) } := by
  simp [update, h]

/-- C3 counterexample: an unready call (no chart) on a series with data and
a previously hidden group is not a no-op — it flips the root group's
visibility, so the previously retained nodes do not remain exactly as they
were. -/
theorem area_update_unready_counterexample_c3 :
    notReady sC3 = true ∧ update sC3 scene3 ≠ scene3 := by
  refine ⟨rfl, fun hEq => ?_⟩
  have h := congrArg SceneState.groupVisible hEq
  simp [update, notReady, sC3, scene3] at h

/-- C3 witness: the amended claim evaluated at the concrete unready
state. -/
theorem area_update_unready_c3_witness :
    update sC3 scene3 =
      { scene3 with
        groupVisible := sC3.visible && (!sC3.xData.isEmpty && !sC3.yData.isEmpty) } :=
  area_update_unready_c3 sC3 scene3 rfl

/-! ### Polygon closure (C6) -/

theorem setAt_length {α : Type} (l : List (Option α)) (i : Nat) (a : α) :
    (setAt l i a).length = max l.length (i + 1) := by
  unfold setAt
  split
  · rename_i h
    rw [List.length_set]
    omega
  · rename_i h
    simp only [List.length_append, List.length_replicate, List.length_cons,
      List.length_nil]
    omega

theorem setAt_get_self {α : Type} (l : List (Option α)) (i : Nat) (a : α) :
    (setAt l i a)[i]? = some (some a) := by
  unfold setAt
  split
  · rename_i h
    rw [List.getElem?_set_self']
    rw [List.getElem?_eq_getElem h]
    rfl
  · rename_i h
    rw [List.append_assoc, List.getElem?_append, if_neg h]
    have h2 : ¬ (i - l.length <
        (List.replicate (i - l.length) (none : Option α)).length) := by
      simp
    rw [List.getElem?_append, if_neg h2, List.length_replicate, Nat.sub_self]
    rfl

theorem setAt_get_ne {α : Type} (l : List (Option α)) (i j : Nat) (a : α)
    (hne : j ≠ i) (hj : j < l.length) :
    (setAt l i a)[j]? = l[j]? := by
  unfold setAt
  split
  · exact List.getElem?_set_ne (fun h => hne h.symm)
  · rw [List.append_assoc, List.getElem?_append, if_pos hj]

theorem genKeyStep_areaData_shape (ctx : GenCtx) (i last : Nat) (x yOffset : ℚ)
    (sd : Datum) (acc : GenAcc) (pm pM : JSNum) (j : Nat) (curr : JSNum) :
    ∃ y1 y2 : JSNum,
      (genKeyStep ctx i last x yOffset sd (acc, pm, pM) (j, curr)).1.areaData =
        putArea acc.areaData j
          ⟨(getArea acc.areaData j (ctx.yKeys.getD j emptyKey)).itemId,
            setAt
              (setAt (getArea acc.areaData j (ctx.yKeys.getD j emptyKey)).points
                i ⟨x, y1⟩)
              (last - i) ⟨x, y2⟩⟩ :=
  ⟨_, _, rfl⟩

/-- A fresh polygon point list created at row 0 satisfies the invariant for
one processed row. -/
theorem ptsInv_new (n : Nat) (hn : 1 ≤ n) (x : ℚ) (y1 y2 : JSNum) :
    PtsInv n 1 (setAt (setAt ([] : List (Option Point)) 0 ⟨x, y1⟩)
      (2 * n - 1 - 0) ⟨x, y2⟩) := by
  have h0 : setAt ([] : List (Option Point)) 0 ⟨x, y1⟩ = [some ⟨x, y1⟩] := rfl
  rw [h0]
  constructor
  · rw [setAt_length]
    simp only [List.length_cons, List.length_nil]
    omega
  · intro i hi
    have hi0 : i = 0 := by omega
    subst hi0
    refine ⟨⟨x, y1⟩, ⟨x, y2⟩, ?_, setAt_get_self _ _ _, rfl⟩
    rw [setAt_get_ne _ _ _ _ (by omega) (by simp)]
    rfl

/-- Writing row `r`'s top and bottom points into a point list that already
satisfies the invariant for `r` rows extends it to `r + 1` rows. -/
theorem ptsInv_update (n r : Nat) (hr : r < n) (x : ℚ) (y1 y2 : JSNum)
    (pts : List (Option Point)) (hinv : PtsInv n r pts) :
    PtsInv n (r + 1) (setAt (setAt pts r ⟨x, y1⟩) (2 * n - 1 - r) ⟨x, y2⟩) := by
  obtain ⟨hlen, hpairs⟩ := hinv
  have hlen1 : (setAt pts r ⟨x, y1⟩).length = 2 * n := by
    rw [setAt_length, hlen]
    omega
  constructor
  · rw [setAt_length, hlen1]
    omega
  · intro i hi
    by_cases hir : i = r
    · subst hir
      refine ⟨⟨x, y1⟩, ⟨x, y2⟩, ?_, setAt_get_self _ _ _, rfl⟩
      rw [setAt_get_ne _ _ _ _ (by omega) (by omega)]
      exact setAt_get_self _ _ _
    · have hir' : i < r := by omega
      obtain ⟨p, q, hp, hq, hx⟩ := hpairs i hir'
      refine ⟨p, q, ?_, ?_, hx⟩
      · rw [setAt_get_ne _ _ _ _ (by omega) (by omega),
          setAt_get_ne _ _ _ _ (by omega) (by omega)]
        exact hp
      · rw [setAt_get_ne _ _ _ _ (by omega) (by omega),
          setAt_get_ne _ _ _ _ (by omega) (by omega)]
        exact hq

/-- Processing key `j0` of row `r` advances the inner invariant by one
key. -/
theorem keyStep_innerInv (ctx : GenCtx) (n r k j0 : Nat) (hrn : r < n)
    (hj0 : j0 < k) (x yOffset : ℚ) (sd : Datum) (acc : GenAcc)
    (pm pM : JSNum) (curr : JSNum) (hacc : InnerInv n r k j0 acc) :
    InnerInv n r k (j0 + 1)
      (genKeyStep ctx r (2 * n - 1) x yOffset sd (acc, pm, pM) (j0, curr)).1 := by
  obtain ⟨hlen, hpts⟩ := hacc
  obtain ⟨y1, y2, hshape⟩ :=
    genKeyStep_areaData_shape ctx r (2 * n - 1) x yOffset sd acc pm pM j0 curr
  by_cases hr0 : r = 0
  · subst hr0
    have hlen' : acc.areaData.length = j0 := by simpa using hlen
    have hshape' :
        (genKeyStep ctx 0 (2 * n - 1) x yOffset sd (acc, pm, pM) (j0, curr)).1.areaData =
          acc.areaData ++
            [⟨ctx.yKeys.getD j0 emptyKey,
              setAt (setAt [] 0 ⟨x, y1⟩) (2 * n - 1 - 0) ⟨x, y2⟩⟩] := by
      rw [hshape]
      unfold putArea getArea
      rw [List.getD_eq_getElem?_getD, List.getElem?_eq_none (by omega),
        Option.getD_none, if_neg (by omega)]
    constructor
    · rw [hshape', List.length_append, hlen']
      simp
    · intro j d hd
      rw [hshape'] at hd
      by_cases hjj : j = j0
      · subst hjj
        rw [List.getElem?_append, if_neg (by omega), hlen', Nat.sub_self,
          List.getElem?_cons_zero] at hd
        injection hd with hd
        subst hd
        simp only [if_pos (Nat.lt_succ_self j)]
        exact ptsInv_new n (by omega) x y1 y2
      · rw [List.getElem?_append] at hd
        by_cases hjlt : j < acc.areaData.length
        · rw [if_pos hjlt] at hd
          have h := hpts j d hd
          have hjj0 : j < j0 := by omega
          simp only [if_pos hjj0] at h
          simp only [if_pos (by omega : j < j0 + 1)]
          exact h
        · rw [if_neg hjlt] at hd
          have hnone : ([(⟨ctx.yKeys.getD j0 emptyKey,
              setAt (setAt [] 0 ⟨x, y1⟩) (2 * n - 1 - 0) ⟨x, y2⟩⟩ :
              AreaDatum)])[j - acc.areaData.length]? = none := by
            apply List.getElem?_eq_none
            simp only [List.length_cons, List.length_nil]
            omega
          rw [hnone] at hd
          exact Option.noConfusion hd
  · have hlen' : acc.areaData.length = k := by simpa [hr0] using hlen
    have hj0len : j0 < acc.areaData.length := by omega
    obtain ⟨dOld, hdOld⟩ : ∃ dOld, acc.areaData[j0]? = some dOld :=
      ⟨acc.areaData[j0], List.getElem?_eq_getElem hj0len⟩
    have hgetA : getArea acc.areaData j0 (ctx.yKeys.getD j0 emptyKey) = dOld := by
      unfold getArea
      rw [List.getD_eq_getElem?_getD, hdOld]
      rfl
    have hshape' :
        (genKeyStep ctx r (2 * n - 1) x yOffset sd (acc, pm, pM) (j0, curr)).1.areaData =
          acc.areaData.set j0
            ⟨dOld.itemId,
              setAt (setAt dOld.points r ⟨x, y1⟩) (2 * n - 1 - r) ⟨x, y2⟩⟩ := by
      rw [hshape, hgetA]
      unfold putArea
      rw [if_pos hj0len]
    constructor
    · rw [hshape', List.length_set, hlen', if_neg hr0]
    · intro j d hd
      rw [hshape'] at hd
      by_cases hjj : j = j0
      · subst hjj
        rw [List.getElem?_set_eq_of_lt _ hj0len] at hd
        injection hd with hd
        subst hd
        have hold := hpts j dOld hdOld
        simp only [if_neg (lt_irrefl j)] at hold
        simp only [if_pos (Nat.lt_succ_self j)]
        exact ptsInv_update n r hrn x y1 y2 dOld.points hold
      · rw [List.getElem?_set_ne (fun hh => hjj hh.symm)] at hd
        have h := hpts j d hd
        by_cases hjlt : j < j0
        · simp only [if_pos hjlt] at h
          simp only [if_pos (by omega : j < j0 + 1)]
          exact h
        · simp only [if_neg hjlt] at h
          simp only [if_neg (by omega : ¬ j < j0 + 1)]
          exact h

/-- Finishing a row turns the end-of-row invariant into the start-of-row
invariant of the next row. -/
theorem innerInv_next_row (n r k : Nat) (acc : GenAcc)
    (h : InnerInv n r k k acc) : InnerInv n (r + 1) k 0 acc := by
  obtain ⟨hlen, hpts⟩ := h
  have hlenk : acc.areaData.length = k := by
    by_cases hr : r = 0 <;> simpa [hr] using hlen
  constructor
  · simpa using hlenk
  · intro j d hd
    by_cases hjk : j < k
    · have h := hpts j d hd
      simp only [if_pos hjk] at h
      simpa using h
    · have hnone : acc.areaData[j]? = none := List.getElem?_eq_none (by omega)
      rw [hnone] at hd
      exact Option.noConfusion hd

/-- Folding the remaining keys of a row preserves and completes the inner
invariant. -/
theorem innerFold_inv (ctx : GenCtx) (n r k : Nat) (hrn : r < n)
    (x yOffset : ℚ) (sd : Datum) (rest : List JSNum) :
    ∀ (j0 : Nat), j0 + rest.length = k →
    ∀ (acc : GenAcc) (pm pM : JSNum), InnerInv n r k j0 acc →
    InnerInv n r k k
      ((List.foldl (genKeyStep ctx r (2 * n - 1) x yOffset sd) (acc, pm, pM)
        (List.enumFrom j0 rest)).1) := by
  induction rest with
  | nil =>
      intro j0 hj0 acc pm pM hacc
      have hj0k : j0 = k := by simpa using hj0
      subst hj0k
      exact hacc
  | cons c cs ih =>
      intro j0 hj0 acc pm pM hacc
      rw [show List.enumFrom j0 (c :: cs) = (j0, c) :: List.enumFrom (j0 + 1) cs
        from rfl, List.foldl_cons]
      have hj0k : j0 < k := by simp at hj0; omega
      have hstep := keyStep_innerInv ctx n r k j0 hrn hj0k x yOffset sd acc pm pM c hacc
      exact ih (j0 + 1) (by simp at hj0 ⊢; omega)
        (genKeyStep ctx r (2 * n - 1) x yOffset sd (acc, pm, pM) (j0, c)).1
        (genKeyStep ctx r (2 * n - 1) x yOffset sd (acc, pm, pM) (j0, c)).2.1
        (genKeyStep ctx r (2 * n - 1) x yOffset sd (acc, pm, pM) (j0, c)).2.2
        hstep

/-- Processing one row advances the start-of-row invariant by one row. -/
theorem rowStep_inv (ctx : GenCtx) (n k : Nat) (xOffset yOffset : ℚ)
    (r : Nat) (hrn : r < n) (hklen : (ctx.yData.getD r []).length = k)
    (acc : GenAcc) (hacc : InnerInv n r k 0 acc) (xd : Option String) :
    InnerInv n (r + 1) k 0
      (genRowStep ctx xOffset yOffset (2 * n - 1) acc (r, xd)) := by
  have h := innerFold_inv ctx n r k hrn (ctx.xScale.convert xd + xOffset) yOffset
    (ctx.data.getD r ⟨fun _ => none, fun _ => none⟩) (ctx.yData.getD r [])
    0 (by simpa using hklen) acc (.fin 0) (.fin 0) hacc
  exact innerInv_next_row n r k _ h

/-- Folding the remaining rows completes the invariant over all rows. -/
theorem outerFold_inv (ctx : GenCtx) (n k : Nat) (xOffset yOffset : ℚ)
    (hk : ∀ i, i < n → (ctx.yData.getD i []).length = k)
    (rest : List (Option String)) :
    ∀ (r : Nat), r + rest.length = n →
    ∀ acc, InnerInv n r k 0 acc →
    InnerInv n n k 0
      (List.foldl (genRowStep ctx xOffset yOffset (2 * n - 1)) acc
        (List.enumFrom r rest)) := by
  induction rest with
  | nil =>
      intro r hr acc hacc
      have hrn : r = n := by simpa using hr
      subst hrn
      exact hacc
  | cons xd xs ih =>
      intro r hr acc hacc
      rw [show List.enumFrom r (xd :: xs) = (r, xd) :: List.enumFrom (r + 1) xs
        from rfl, List.foldl_cons]
      have hrn : r < n := by simp at hr; omega
      exact ih (r + 1) (by simp at hr ⊢; omega) _
        (rowStep_inv ctx n k xOffset yOffset r hrn (hk r hrn) acc hacc xd)

/-- C6: over `n` rows (uniform value vectors), every area-polygon datum
produced by `generateSelectionData` has a point list of length `2*n`, and
for every row `i < n` the top-edge point `points[i]` and the bottom-edge
point `points[2n-1-i]` are assigned and share the same x-coordinate. -/
theorem area_polygon_closure_c6 (s : SeriesUpdateState) (xAxis : XAxisModel)
    (yAxis : YAxisModel) (data : List Datum) (k : Nat)
    (hdata : s.data = some data)
    (hlen : s.yData.length = s.xData.length)
    (hrows : ∀ row ∈ s.yData, row.length = k)
    (g : GenAcc) (hg : generateSelectionData s xAxis yAxis = some g) :
    ∀ d ∈ g.areaData,
      d.points.length = 2 * s.xData.length ∧
      ∀ i < s.xData.length, ∃ p q : Point,
        d.points[i]? = some (some p) ∧
        d.points[2 * s.xData.length - 1 - i]? = some (some q) ∧
        p.x = q.x := by
  have hg' : g = s.xData.enum.foldl
      (genRowStep ⟨data, s.yData, s.yKeys, s.fills, s.strokes, s.label, xAxis, yAxis⟩
        (xAxis.bandwidth.getD 0 / 2) (yAxis.bandwidth.getD 0 / 2)
        (s.xData.length * 2 - 1)) ⟨[], [], []⟩ := by
    unfold generateSelectionData at hg
    rw [hdata] at hg
    simpa using hg.symm
  have hlast : s.xData.length * 2 - 1 = 2 * s.xData.length - 1 := by omega
  rw [hlast] at hg'
  have hk : ∀ i, i < s.xData.length → ((s.yData).getD i []).length = k := by
    intro i hi
    have hi' : i < s.yData.length := by omega
    rw [List.getD_eq_getElem?_getD, List.getElem?_eq_getElem hi']
    exact hrows _ (List.getElem_mem hi')
  have hinit : InnerInv s.xData.length 0 k 0 (⟨[], [], []⟩ : GenAcc) := by
    refine ⟨by simp, fun j d hd => ?_⟩
    rw [List.getElem?_eq_none (by simp)] at hd
    exact Option.noConfusion hd
  have hfin := outerFold_inv
    ⟨data, s.yData, s.yKeys, s.fills, s.strokes, s.label, xAxis, yAxis⟩
    s.xData.length k (xAxis.bandwidth.getD 0 / 2) (yAxis.bandwidth.getD 0 / 2)
    hk s.xData 0 (by simp) _ hinit
  rw [show List.enumFrom 0 s.xData = s.xData.enum from rfl] at hfin
  rw [← hg'] at hfin
  obtain ⟨_, hgpts⟩ := hfin
  intro d hd
  obtain ⟨j, hj, hjd⟩ := List.mem_iff_getElem.mp hd
  have hget : g.areaData[j]? = some d := by
    rw [List.getElem?_eq_getElem hj, hjd]
  have h := hgpts j d hget
  simp only [Nat.not_lt_zero, if_false] at h
  exact ⟨h.1, fun i hi => h.2 i hi⟩

/-- C6 witness: the concrete 2-row, 1-key state: the single polygon datum
has 4 points with the row-0/row-3 and row-1/row-2 x-coordinates equal. -/
theorem area_polygon_closure_c6_witness :
    ∃ g, generateSelectionData sC6 xAxis6 yAxis6 = some g ∧
      ∀ d ∈ g.areaData,
        d.points.length = 2 * sC6.xData.length ∧
        ∀ i < sC6.xData.length, ∃ p q : Point,
          d.points[i]? = some (some p) ∧
          d.points[2 * sC6.xData.length - 1 - i]? = some (some q) ∧
          p.x = q.x := by
  refine ⟨_, rfl, ?_⟩
  exact area_polygon_closure_c6 sC6 xAxis6 yAxis6 [dat6, dat6] 1 rfl rfl
    (by intro row hr; fin_cases hr <;> rfl) _ rfl
